import Mathlib

/-!
Verification of the double-slit particle-accumulation animation from
`src/website.py` (`show_doubleslit` and its inner `animate`), embedded
shallowly over the reals.

The source component consists of:
* the intensity pattern `I = np.cos(10*y)**2 * np.sinc(2*y)**2`,
* a rejection sampler (`while True` loop drawing `r_y ~ uniform(-1, 1)`
  and accepting when `np.random.random() < prob`),
* per-frame accumulation (`landed_y.append` every 5th frame),
* an in-flight dot position `(-1.5 + 4*prog, target*prog)` with
  `prog = (frame % 5) / 5`,
* a 29-bin histogram over `np.linspace(-1, 1, 30)`, max-normalized.

Randomness is modelled as an injectable stream of draws: a list of
`(candidate, threshold)` pairs handed to each sampling loop.
-/

open Real

/-- The normalized sinc function used by `np.sinc` in the source:
`sin (π x) / (π x)`, with value `1` at `x = 0` by continuity. -/
noncomputable def sinc (x : ℝ) : ℝ :=
  if x = 0 then 1 else Real.sin (Real.pi * x) / (Real.pi * x)

/-- The detector-plane intensity from `src/website.py` line 291 (and line
277): `I(y) = cos(10·y)^2 · sinc(2·y)^2`. -/
noncomputable def I (y : ℝ) : ℝ :=
  Real.cos (10 * y) ^ 2 * sinc (2 * y) ^ 2

/-- The rejection-sampling loop of `animate` (lines 289–294 of
`src/website.py`), run on an explicit stream of random draws.  Each pair
`(y, u)` is one iteration's `(np.random.uniform(-1, 1), np.random.random())`;
the loop accepts the first `y` with `u < I y`.  The result also counts the
rejections before acceptance; `none` means the provided stream was exhausted
with no candidate accepted (the source loop would still be running). -/
noncomputable def sampleRun : List (ℝ × ℝ) → Option (ℝ × ℕ)
  | [] => none
  | (y, u) :: rest =>
    if u < I y then some (y, 0)
    else (sampleRun rest).map (fun p => (p.1, p.2 + 1))

/-- One histogram bin edge: `np.linspace(-1, 1, 30)` from line 280 of
`src/website.py` produces the 30 edges `-1 + i·(2/29)` for `i = 0, …, 29`,
hence 29 equal-width bins. -/
noncomputable def binEdge (i : ℕ) : ℝ := -1 + i * (2 / 29)

/-- Membership of a position in histogram bin `i` (0-based, `i < 29`),
following `np.histogram` semantics: bin `i` is the half-open interval
`[edge i, edge (i+1))`, except the last bin (`i = 28`) which also includes
the right endpoint `edge 29 = 1`. -/
def memBin (i : ℕ) (x : ℝ) : Prop :=
  binEdge i ≤ x ∧ (x < binEdge (i + 1) ∨ (i = 28 ∧ x ≤ binEdge 29))

noncomputable instance (i : ℕ) (x : ℝ) : Decidable (memBin i x) := by
  unfold memBin; infer_instance

/-- The raw count of accumulated positions falling in bin `i`: the
per-bin content of `np.histogram(landed_y, bins=bins)` (line 308). -/
noncomputable def binCount (i : ℕ) : List ℝ → ℕ
  | [] => 0
  | x :: xs => (if memBin i x then 1 else 0) + binCount i xs

/-- The full vector of 29 raw bin counts (`hist` on line 308). -/
noncomputable def binCounts (landed : List ℝ) : List ℕ :=
  (List.range 29).map (fun i => binCount i landed)

/-- `max(hist)`: the maximum raw bin count (line 310). -/
noncomputable def maxCount (landed : List ℝ) : ℕ :=
  (binCounts landed).foldr max 0

/-- The displayed histogram bar widths after a frame whose accumulated
list is `landed` (lines 307–312).  When particles have landed the counts
are divided by `max(hist)` if that maximum is positive and left as raw
counts otherwise; when no particle has landed the bars are not touched and
keep their initial widths `np.zeros(29)` from line 281. -/
noncomputable def histHeights (landed : List ℝ) : List ℝ :=
  if landed.length > 0 then
    if 0 < maxCount landed then
      (binCounts landed).map (fun c : ℕ => (c : ℝ) / (maxCount landed))
    else (binCounts landed).map (fun c : ℕ => (c : ℝ))
  else List.replicate 29 0

/-- The in-flight dot position for frame `frame` given the accumulated
list (lines 296–302): with `sub = frame % 5` and `prog = sub / 5.0`, the
dot is drawn at `(-1.5 + 4*prog, target*prog)` where `target` is the most
recently landed position `landed_y[-1]`; if no particle has landed the dot
keeps no position (`none`). -/
noncomputable def dotPos (frame : ℕ) (landed : List ℝ) : Option (ℝ × ℝ) :=
  match landed.getLast? with
  | some target =>
    some (-1.5 + 4 * (((frame % 5 : ℕ) : ℝ) / 5),
      target * (((frame % 5 : ℕ) : ℝ) / 5))
  | none => none

/-- The state-update part of `animate` (lines 285–294): on frames with
`frame % 5 == 0` run the rejection sampler on this frame's draw stream and
append the accepted position to `landed_y`; otherwise leave the list
unchanged.  `none` propagates a sampling loop that never accepted within
its stream. -/
noncomputable def animateStep (draws : List (ℝ × ℝ)) (frame : ℕ)
    (landed : List ℝ) : Option (List ℝ) :=
  if frame % 5 = 0 then
    (sampleRun draws).map (fun p => landed ++ [p.1])
  else some landed

/-- The frame-update output record: the new accumulated state, the
in-flight dot position, and the histogram bar widths. -/
structure FrameResult where
  state : List ℝ
  dot : Option (ℝ × ℝ)
  hist : List ℝ

/-- One full call of `animate(frame)` (lines 285–314) from a given
accumulated state, with `draws` the random pairs consumed by this frame's
sampling loop (unused on non-accumulation frames): updates `landed_y`,
then computes the dot position and histogram bars from the updated
state. -/
noncomputable def animate (draws : List (ℝ × ℝ)) (frame : ℕ)
    (landed : List ℝ) : Option FrameResult :=
  match animateStep draws frame landed with
  | some landed1 => some ⟨landed1, dotPos frame landed1, histHeights landed1⟩
  | none => none

/-- Running `animate` for frames `0, 1, …, n-1` starting from the empty
`landed_y = []` of line 283, with `draws f` the random stream available to
frame `f`; returns the accumulated list after `n` frames. -/
noncomputable def runFrames (draws : ℕ → List (ℝ × ℝ)) : ℕ → Option (List ℝ)
  | 0 => some []
  | n + 1 => (runFrames draws n).bind (fun landed => animateStep (draws n) n landed)

/-- The accumulated particle count after `n` frames (`len(landed_y)`). -/
noncomputable def countAfter (draws : ℕ → List (ℝ × ℝ)) (n : ℕ) : ℕ :=
  ((runFrames draws n).getD []).length

/-- A deterministic random stream whose every sampling loop immediately
proposes `y = 0` with threshold `u = 0`: used to exercise the model on
concrete runs. -/
noncomputable def oneDraw : ℕ → List (ℝ × ℝ) := fun _ => [(0, 0)]

lemma sinc_zero : sinc 0 = 1 := by simp [sinc]

lemma I_zero : I 0 = 1 := by
  simp [I, sinc_zero]

lemma I_nonneg (y : ℝ) : 0 ≤ I y := by
  unfold I
  positivity

lemma sinc_sq_le_one (x : ℝ) : sinc x ^ 2 ≤ 1 := by
  unfold sinc
  split
  · norm_num
  · rename_i hx
    have hπx : Real.pi * x ≠ 0 := by
      exact mul_ne_zero Real.pi_ne_zero hx
    have habs : |Real.sin (Real.pi * x)| ≤ |Real.pi * x| := Real.abs_sin_le_abs
    have hsq : Real.sin (Real.pi * x) ^ 2 ≤ (Real.pi * x) ^ 2 := by
      calc Real.sin (Real.pi * x) ^ 2 ≤ |Real.pi * x| ^ 2 := by
            rw [← sq_abs]
            exact pow_le_pow_left₀ (abs_nonneg _) habs 2
        _ = (Real.pi * x) ^ 2 := sq_abs _
    rw [div_pow]
    rw [div_le_one (by positivity)]
    exact hsq

lemma I_le_one (y : ℝ) : I y ≤ 1 := by
  unfold I
  have h1 : Real.cos (10 * y) ^ 2 ≤ 1 := by
    rw [← sq_abs]
    have := Real.abs_cos_le_one (10 * y)
    nlinarith [abs_nonneg (Real.cos (10 * y))]
  have h2 : sinc (2 * y) ^ 2 ≤ 1 := sinc_sq_le_one (2 * y)
  have h3 : 0 ≤ sinc (2 * y) ^ 2 := sq_nonneg _
  nlinarith

lemma sampleRun_accept {y u : ℝ} (rest : List (ℝ × ℝ)) (h : u < I y) :
    sampleRun ((y, u) :: rest) = some (y, 0) := by
  unfold sampleRun
  simp [h]

lemma sampleRun_reject {y u : ℝ} (rest : List (ℝ × ℝ)) (h : ¬ u < I y) :
    sampleRun ((y, u) :: rest) =
      (sampleRun rest).map (fun p => (p.1, p.2 + 1)) := by
  cases rest with
  | nil => simp [sampleRun, h]
  | cons p l =>
    cases p with
    | mk a b => simp [sampleRun, h]

lemma sampleRun_zero_zero (rest : List (ℝ × ℝ)) :
    sampleRun ((0, 0) :: rest) = some (0, 0) :=
  sampleRun_accept rest (by rw [I_zero]; norm_num)

/-- **C2.** For every real position `y`, the intensity
`I(y) = cos(10·y)² · sinc(2·y)²` (with `sinc 0 = 1` by continuity)
satisfies `0 ≤ I(y) ≤ 1`; it is a total function on ℝ, defined everywhere. -/
theorem I_bounded (y : ℝ) : 0 ≤ I y ∧ I y ≤ 1 :=
  ⟨I_nonneg y, I_le_one y⟩

/-- **C1.** The rejection sampler accepts exactly the first candidate whose
threshold falls below the intensity: a head pair `(y, u)` with `u < I y` is
returned at once with `0` retries, a head pair with `u ≥ I y` is skipped and
the retry count incremented; and on a stream whose first draw proposes
`y = 0` with threshold `u = 0` (where `I 0 = 1`, the central fringe maximum)
it accepts immediately with `0` retries. -/
theorem sampler_first_accept (rest : List (ℝ × ℝ)) :
    (∀ y u : ℝ, u < I y → sampleRun ((y, u) :: rest) = some (y, 0)) ∧
    (∀ y u : ℝ, ¬ u < I y →
      sampleRun ((y, u) :: rest) =
        (sampleRun rest).map (fun p => (p.1, p.2 + 1))) ∧
    I 0 = 1 ∧ sampleRun ((0, 0) :: rest) = some (0, 0) := by
  exact ⟨fun y u h => sampleRun_accept rest h,
    fun y u h => sampleRun_reject rest h, I_zero, sampleRun_zero_zero rest⟩

/-- Witness for C1: on the concrete one-element stream `[(0, 0)]` the
sampler accepts `y = 0` with `0` retries, and the acceptance hypothesis
`0 < I 0` holds since `I 0 = 1`. -/
theorem sampler_first_accept_witness :
    I 0 = 1 ∧ sampleRun [((0 : ℝ), (0 : ℝ))] = some (0, 0) :=
  ⟨(sampler_first_accept []).2.2.1, (sampler_first_accept []).2.2.2⟩

lemma sampleRun_replicate_reject (n : ℕ) (rest : List (ℝ × ℝ)) :
    sampleRun (List.replicate n ((0 : ℝ), (1 : ℝ)) ++ rest) =
      (sampleRun rest).map (fun p => (p.1, p.2 + n)) := by
  induction n with
  | zero =>
    cases h : sampleRun rest <;> simp [h]
  | succ m ih =>
    rw [List.replicate_succ, List.cons_append]
    rw [sampleRun_reject _ (by rw [I_zero]; norm_num), ih]
    cases h : sampleRun rest with
    | none => simp [h]
    | some p =>
      simp [h]
      ring

lemma oneDraw_isSome (f : ℕ) : (sampleRun (oneDraw f)).isSome := by
  show (sampleRun ((0, 0) :: [])).isSome
  rw [sampleRun_zero_zero]
  rfl

lemma runFrames_length (draws : ℕ → List (ℝ × ℝ))
    (hs : ∀ f, (sampleRun (draws f)).isSome) (n : ℕ) :
    ∃ landed, runFrames draws n = some landed ∧ landed.length = (n + 4) / 5 := by
  induction n with
  | zero => exact ⟨[], rfl, rfl⟩
  | succ m ih =>
    obtain ⟨landed, hrun, hlen⟩ := ih
    obtain ⟨p, hp⟩ := Option.isSome_iff_exists.mp (hs m)
    by_cases hm : m % 5 = 0
    · refine ⟨landed ++ [p.1], ?_, ?_⟩
      · rw [runFrames, hrun, Option.some_bind, animateStep, if_pos hm, hp,
          Option.map_some']
      · rw [List.length_append, List.length_singleton, hlen]
        omega
    · refine ⟨landed, ?_, by rw [hlen]; omega⟩
      rw [runFrames, hrun, Option.some_bind, animateStep, if_neg hm]

lemma runFrames_oneDraw_one : runFrames oneDraw 1 = some [(0 : ℝ)] := by
  show (runFrames oneDraw 0).bind (fun landed => animateStep (oneDraw 0) 0 landed) = _
  rw [runFrames, Option.some_bind, animateStep]
  rw [if_pos (by norm_num)]
  show (sampleRun ((0, 0) :: [])).map _ = _
  rw [sampleRun_zero_zero]
  rfl

/-- **C3.** Across a run of the frame-update function the accumulated
particle count is non-decreasing: it increases by exactly 1 on each frame
`f` with `f % 5 = 0` and on no other frame; after 0 frames the count is 0
and all 29 histogram bin heights are 0, and after exactly 50 frames
(frames 0 through 49) the count is exactly 10 — provided every frame's
sampling loop accepts within its random stream, as the `while True` loop
of the source does with probability 1. -/
theorem frame_counts (draws : ℕ → List (ℝ × ℝ))
    (hs : ∀ f, (sampleRun (draws f)).isSome) :
    (∀ n, countAfter draws (n + 1) =
      countAfter draws n + (if n % 5 = 0 then 1 else 0)) ∧
    countAfter draws 0 = 0 ∧ countAfter draws 50 = 10 ∧
    (∀ h ∈ histHeights ((runFrames draws 0).getD []), h = 0) := by
  have key : ∀ n, countAfter draws n = (n + 4) / 5 := by
    intro n
    obtain ⟨landed, hrun, hlen⟩ := runFrames_length draws hs n
    rw [countAfter, hrun, Option.getD_some, hlen]
  refine ⟨fun n => ?_, by rw [key], by rw [key], ?_⟩
  · rw [key, key]
    by_cases hn : n % 5 = 0
    · rw [if_pos hn]; omega
    · rw [if_neg hn]; omega
  · intro h hh
    have h0 : runFrames draws 0 = some [] := rfl
    rw [h0, Option.getD_some, histHeights] at hh
    simp only [List.length_nil, gt_iff_lt, lt_self_iff_false, if_false] at hh
    exact List.eq_of_mem_replicate hh

/-- Witness for C3: with the concrete stream that always proposes
`(0, 0)`, the count after 50 frames is exactly 10 and after 0 frames is
0. -/
theorem frame_counts_witness :
    countAfter oneDraw 50 = 10 ∧ countAfter oneDraw 0 = 0 :=
  ⟨(frame_counts oneDraw oneDraw_isSome).2.2.1,
    (frame_counts oneDraw oneDraw_isSome).2.1⟩

/-- **C10.** Because an accumulation event occurs at frame 0
(`0 % 5 = 0`), after the update for every frame index `f ≥ 0` the
accumulated list is non-empty and holds exactly `⌊f/5⌋ + 1` particles; in
particular the `none` case of the in-flight dot position never occurs:
`dotPos` is `some` on every frame — again provided every sampling loop
accepts within its stream. -/
theorem run_always_inflight (draws : ℕ → List (ℝ × ℝ))
    (hs : ∀ f, (sampleRun (draws f)).isSome) (f : ℕ) :
    (runFrames draws (f + 1)).isSome ∧
    ((runFrames draws (f + 1)).getD []).length = f / 5 + 1 ∧
    (runFrames draws (f + 1)).getD [] ≠ [] ∧
    (dotPos f ((runFrames draws (f + 1)).getD [])).isSome := by
  obtain ⟨landed, hrun, hlen⟩ := runFrames_length draws hs (f + 1)
  have hlen' : landed.length = f / 5 + 1 := by rw [hlen]; omega
  have hne : landed ≠ [] := by
    intro h
    rw [h] at hlen'
    simp at hlen'
  obtain ⟨target, htarget⟩ :=
    Option.isSome_iff_exists.mp (List.getLast?_isSome.mpr hne)
  refine ⟨by rw [hrun]; rfl, ?_, ?_, ?_⟩
  · rw [hrun, Option.getD_some, hlen']
  · rw [hrun, Option.getD_some]; exact hne
  · rw [hrun, Option.getD_some, dotPos, htarget]
    rfl

/-- Witness for C10: with the concrete always-`(0,0)` stream, after
frame 0 the list is non-empty (1 particle) and the dot position is
`some`. -/
theorem run_always_inflight_witness :
    (runFrames oneDraw (0 + 1)).isSome ∧
    ((runFrames oneDraw (0 + 1)).getD []).length = 0 / 5 + 1 ∧
    (runFrames oneDraw (0 + 1)).getD [] ≠ [] ∧
    (dotPos 0 ((runFrames oneDraw (0 + 1)).getD [])).isSome :=
  run_always_inflight oneDraw oneDraw_isSome 0

/-- **C6.** On a frame `f` with `f % 5 ≠ 0` (no accumulation event), a
call of the frame-update function leaves the accumulated state unchanged
and its outputs are a pure function of the frame index and that state:
calling it twice in direct succession with the same frame index — whatever
random draws are on offer — produces the very same in-flight dot
position. -/
theorem frame_idempotent (d1 d2 : List (ℝ × ℝ)) (f : ℕ) (landed : List ℝ)
    (h : f % 5 ≠ 0) :
    animate d1 f landed =
      some ⟨landed, dotPos f landed, histHeights landed⟩ ∧
    ((animate d1 f landed).bind (fun r => animate d2 f r.state)).map
        FrameResult.dot =
      (animate d1 f landed).map FrameResult.dot := by
  have hstep : ∀ d : List (ℝ × ℝ), animateStep d f landed = some landed :=
    fun d => by rw [animateStep, if_neg h]
  have hcall : ∀ d : List (ℝ × ℝ), animate d f landed =
      some ⟨landed, dotPos f landed, histHeights landed⟩ := by
    intro d
    rw [animate, hstep]
  refine ⟨hcall d1, ?_⟩
  rw [hcall d1, Option.some_bind]
  show (animate d2 f landed).map FrameResult.dot = _
  rw [hcall d2]

/-- Witness for C6: at the concrete frame `f = 1` (so `1 % 5 ≠ 0`) from
the empty state, both successive calls return the unchanged state and the
same dot position. -/
theorem frame_idempotent_witness :
    (1 % 5 ≠ 0) ∧
    animate [] 1 [] = some ⟨[], dotPos 1 [], histHeights []⟩ ∧
    ((animate [] 1 []).bind (fun r => animate [] 1 r.state)).map
        FrameResult.dot =
      (animate [] 1 []).map FrameResult.dot :=
  ⟨by norm_num, (frame_idempotent [] [] 1 [] (by norm_num)).1,
    (frame_idempotent [] [] 1 [] (by norm_num)).2⟩

/-- **C7.** The in-flight dot position interpolates linearly from the
fixed start point `(-1.5, 0)` toward the latest particle's landing point
`(2.5, target)` over the cadence window: at sub-frame `s = f % 5` the
displayed position is the start plus the fraction `s/5` of the
displacement toward the landing point — in particular its `y`-coordinate
is `(s/5) · target`, where `target` is the last landed position. -/
theorem dot_interpolation (f : ℕ) (landed : List ℝ) (target : ℝ)
    (h : landed.getLast? = some target) :
    dotPos f landed =
      some (-1.5 + ((f % 5 : ℕ) : ℝ) / 5 * (2.5 - -1.5),
        0 + ((f % 5 : ℕ) : ℝ) / 5 * (target - 0)) := by
  rw [dotPos, h]
  simp only [Option.some.injEq, Prod.mk.injEq]
  constructor <;> ring

/-- Witness for C7: at frame 3 with last landed position `1/2`, the dot
sits at `(-1.5 + (3/5)·4, (3/5)·(1/2))`. -/
theorem dot_interpolation_witness :
    [(1 : ℝ) / 2].getLast? = some (1 / 2) ∧
    dotPos 3 [(1 : ℝ) / 2] =
      some (-1.5 + ((3 % 5 : ℕ) : ℝ) / 5 * (2.5 - -1.5),
        0 + ((3 % 5 : ℕ) : ℝ) / 5 * ((1 : ℝ) / 2 - 0)) :=
  ⟨rfl, dot_interpolation 3 [(1 : ℝ) / 2] ((1 : ℝ) / 2) rfl⟩

/-- Counterexample to C5 as stated: the source's `while True` sampling
loop has no retry cap — after 10 001 straight rejections (well past the
claimed defensive bound of 10 000) it does not fail with any
`SamplingExhausted` condition, but keeps drawing and returns the next
accepted candidate with 10 001 counted retries. -/
theorem sampler_no_cap_cex :
    sampleRun (List.replicate 10001 ((0 : ℝ), (1 : ℝ)) ++ [(0, 0)]) =
      some (0, 10001) := by
  rw [sampleRun_replicate_reject, sampleRun_zero_zero]
  rfl

/-- **C5 (amended).** The sampling loop applies no retry bound at all:
for every `n`, a stream of `n` rejected draws followed by an accepted one
makes the sampler return that accepted candidate with `n` retries; no
`SamplingExhausted` failure, warning, or skip-this-frame path exists in
the code. -/
theorem sampler_no_cap (n : ℕ) :
    sampleRun (List.replicate n ((0 : ℝ), (1 : ℝ)) ++ [(0, 0)]) =
      some (0, n) := by
  rw [sampleRun_replicate_reject, sampleRun_zero_zero]
  simp

lemma binEdge_le_iff (i : ℕ) (x : ℝ) :
    binEdge i ≤ x ↔ (i : ℝ) ≤ 29 * (x + 1) / 2 := by
  rw [binEdge]
  constructor <;> intro h <;> linarith

lemma lt_binEdge_iff (i : ℕ) (x : ℝ) :
    x < binEdge i ↔ 29 * (x + 1) / 2 < (i : ℝ) := by
  rw [binEdge]
  constructor <;> intro h <;> linarith

lemma exists_memBin {x : ℝ} (h1 : -1 ≤ x) (h2 : x ≤ 1) :
    ∃ i < 29, memBin i x := by
  have ht0 : (0 : ℝ) ≤ 29 * (x + 1) / 2 := by linarith
  by_cases hc : ⌊29 * (x + 1) / 2⌋₊ ≤ 27
  · refine ⟨⌊29 * (x + 1) / 2⌋₊, by omega, ?_⟩
    unfold memBin
    refine ⟨?_, Or.inl ?_⟩
    · rw [binEdge_le_iff]
      exact Nat.floor_le ht0
    · rw [lt_binEdge_iff]
      push_cast
      exact Nat.lt_floor_add_one _
  · refine ⟨28, by omega, ?_⟩
    unfold memBin
    refine ⟨?_, Or.inr ⟨rfl, ?_⟩⟩
    · rw [binEdge_le_iff]
      have h28 : ((28 : ℕ) : ℝ) ≤ (⌊29 * (x + 1) / 2⌋₊ : ℝ) :=
        Nat.cast_le.mpr (by omega)
      have hfl := Nat.floor_le ht0
      push_cast at h28 ⊢
      linarith
    · rw [binEdge]
      push_cast
      linarith

lemma binCount_pos {i : ℕ} {x : ℝ} {l : List ℝ} (hx : x ∈ l)
    (hb : memBin i x) : 0 < binCount i l := by
  induction hx with
  | head as =>
    rw [binCount, if_pos hb]
    omega
  | tail b hmem ih =>
    rw [binCount]
    split_ifs <;> omega

lemma le_foldr_max {a : ℕ} {l : List ℕ} (h : a ∈ l) : a ≤ l.foldr max 0 := by
  induction h with
  | head as => exact le_max_left _ _
  | tail b hmem ih => exact le_trans ih (le_max_right _ _)

lemma foldr_max_mem {l : List ℕ} (h : 0 < l.foldr max 0) :
    l.foldr max 0 ∈ l := by
  induction l with
  | nil => simp at h
  | cons b bs ih =>
    rcases le_or_lt (bs.foldr max 0) b with hle | hlt
    · rw [List.foldr_cons, max_eq_left hle]
      exact List.mem_cons_self b bs
    · rw [List.foldr_cons, max_eq_right (le_of_lt hlt)]
      exact List.mem_cons_of_mem b (ih (by omega))

lemma binCount_le_maxCount {i : ℕ} (hi : i < 29) (landed : List ℝ) :
    binCount i landed ≤ maxCount landed :=
  le_foldr_max (List.mem_map.mpr ⟨i, List.mem_range.mpr hi, rfl⟩)

lemma maxCount_pos {landed : List ℝ}
    (hdom : ∀ x ∈ landed, -1 ≤ x ∧ x ≤ 1) (hne : landed ≠ []) :
    0 < maxCount landed := by
  obtain ⟨x, hx⟩ := List.exists_mem_of_ne_nil landed hne
  obtain ⟨i, hi, hbin⟩ := exists_memBin (hdom x hx).1 (hdom x hx).2
  exact lt_of_lt_of_le (binCount_pos hx hbin) (binCount_le_maxCount hi landed)

/-- **C4.** After every frame update the histogram bar widths all lie in
`[0, 1]`; with no landed particles all bars are 0; and — for an
accumulated list drawn from the domain `[-1, 1]`, as every landed position
is — whenever at least one particle has landed, at least one bar equals
exactly 1 (the max-normalization invariant). -/
theorem hist_normalized (landed : List ℝ)
    (hdom : ∀ x ∈ landed, -1 ≤ x ∧ x ≤ 1) :
    (∀ h ∈ histHeights landed, 0 ≤ h ∧ h ≤ 1) ∧
    (landed = [] → ∀ h ∈ histHeights landed, h = 0) ∧
    (landed ≠ [] → ∃ h ∈ histHeights landed, h = 1) := by
  refine ⟨?_, ?_, ?_⟩
  · intro h hh
    rw [histHeights] at hh
    split_ifs at hh with hlen hpos
    · obtain ⟨c, hc, rfl⟩ := List.mem_map.mp hh
      have hcm : c ≤ maxCount landed := le_foldr_max hc
      refine ⟨by positivity, ?_⟩
      rw [div_le_one (by exact_mod_cast hpos)]
      exact_mod_cast hcm
    · obtain ⟨c, hc, rfl⟩ := List.mem_map.mp hh
      have hcm : c ≤ maxCount landed := le_foldr_max hc
      have hc0 : c = 0 := by omega
      rw [hc0]
      norm_num
    · rw [List.eq_of_mem_replicate hh]
      norm_num
  · intro hempty h hh
    subst hempty
    rw [histHeights] at hh
    simp only [List.length_nil, gt_iff_lt, lt_self_iff_false, if_false] at hh
    exact List.eq_of_mem_replicate hh
  · intro hne
    have hm : 0 < maxCount landed := maxCount_pos hdom hne
    refine ⟨(maxCount landed : ℝ) / (maxCount landed : ℝ), ?_, ?_⟩
    · rw [histHeights, if_pos (List.length_pos.mpr hne), if_pos hm]
      exact List.mem_map.mpr ⟨maxCount landed, foldr_max_mem hm, rfl⟩
    · rw [div_self (by exact_mod_cast hm.ne')]

/-- Witness for C4: for the concrete one-particle list `[0]` (whose single
element lies in `[-1, 1]`), some histogram bar equals exactly 1. -/
theorem hist_normalized_witness : (1 : ℝ) ∈ histHeights [(0 : ℝ)] := by
  obtain ⟨h, hm, he⟩ := (hist_normalized [(0 : ℝ)]
    (by intro x hx; rw [List.mem_singleton] at hx; subst hx; norm_num)).2.2
    (by simp)
  exact he ▸ hm

lemma sampleRun_mem {l : List (ℝ × ℝ)} {y : ℝ} {k : ℕ}
    (h : sampleRun l = some (y, k)) : ∃ u, (y, u) ∈ l := by
  induction l generalizing k with
  | nil => exact absurd h (by rw [sampleRun]; simp)
  | cons p rest ih =>
    obtain ⟨a, b⟩ := p
    rw [sampleRun] at h
    split_ifs at h with hab
    · simp only [Option.some.injEq, Prod.mk.injEq] at h
      obtain ⟨rfl, -⟩ := h
      exact ⟨b, List.mem_cons_self (a, b) rest⟩
    · obtain ⟨⟨y1, k1⟩, hr, heq⟩ := Option.map_eq_some'.mp h
      simp only [Prod.mk.injEq] at heq
      obtain ⟨rfl, -⟩ := heq
      obtain ⟨u, hu⟩ := ih hr
      exact ⟨u, List.mem_cons_of_mem _ hu⟩

lemma runFrames_mem_domain (draws : ℕ → List (ℝ × ℝ))
    (hdom : ∀ f, ∀ p ∈ draws f, -1 ≤ p.1 ∧ p.1 ≤ 1) :
    ∀ n landed, runFrames draws n = some landed →
      ∀ x ∈ landed, -1 ≤ x ∧ x ≤ 1 := by
  intro n
  induction n with
  | zero =>
    intro landed h x hx
    rw [runFrames] at h
    cases h
    cases hx
  | succ m ih =>
    intro landed h x hx
    rw [runFrames] at h
    obtain ⟨l0, hl0, hstep⟩ := Option.bind_eq_some.mp h
    rw [animateStep] at hstep
    split_ifs at hstep with hm
    · obtain ⟨⟨y, k⟩, hs, heq⟩ := Option.map_eq_some'.mp hstep
      subst heq
      rcases List.mem_append.mp hx with hx0 | hx1
      · exact ih l0 hl0 x hx0
      · rw [List.mem_singleton] at hx1
        subst hx1
        obtain ⟨u, hu⟩ := sampleRun_mem hs
        exact hdom m (x, u) hu
    · injection hstep with h2
      exact ih landed (h2 ▸ hl0) x hx

/-- **C9.** Every accumulated landing position produced by a run lies in
the domain `[-1, 1]`, provided every random draw proposes candidates from
`[-1, 1]` (as `np.random.uniform(-1, 1)` does); consequently, whenever the
accumulated list is non-empty the maximum raw bin count over the 29 bins
spanning `[-1, 1]` is at least 1, so the fallback branch of line 310 that
would leave the histogram unnormalized while particles are present
(`max(hist) == 0`) is unreachable. -/
theorem landed_in_domain (draws : ℕ → List (ℝ × ℝ))
    (hdom : ∀ f, ∀ p ∈ draws f, -1 ≤ p.1 ∧ p.1 ≤ 1)
    (n : ℕ) (landed : List ℝ) (hrun : runFrames draws n = some landed) :
    (∀ x ∈ landed, -1 ≤ x ∧ x ≤ 1) ∧ (landed ≠ [] → 0 < maxCount landed) := by
  have h1 := runFrames_mem_domain draws hdom n landed hrun
  exact ⟨h1, fun hne => maxCount_pos h1 hne⟩

/-- Witness for C9: after one frame of the concrete always-`(0, 0)` run
the accumulated list is `[0]` and its maximum bin count is positive, so
the normalization branch is taken. -/
theorem landed_in_domain_witness : 0 < maxCount [(0 : ℝ)] :=
  (landed_in_domain oneDraw
    (fun f p hp => by
      rw [oneDraw, List.mem_singleton] at hp
      subst hp
      norm_num)
    1 [(0 : ℝ)] runFrames_oneDraw_one).2 (by simp)
